import Mathlib

/-!
Verification of `clap-subopt-parser` (src/lib.rs): a parser for
`key1=val1:key2=val2` sub-option syntax plugged into clap as a
`TypedValueParser`.

Strings are embedded as `List Char`.  Rust's `str::split(':')` and
`str::split_once('=')` are embedded as `splitOnChar` and `splitOnce`.
The `SubOpt` trait is a structure of functions; `&mut self` methods
returning `Result<(), SubOptError>` become state-passing functions
returning `Except SubOptError T`.  `parse_ref`'s token loop becomes the
recursive `processTokens`; an instrumented twin `processTokensT`
additionally records the update calls it makes, so claims about which
calls happen (and in what order) can be stated.
-/

namespace ClapSubopt

/-- Rust's `SubOptError` enum (src/lib.rs lines 114-122); payload `String`s
are embedded as `List Char`. -/
inductive SubOptError where
  | UnknownKey (k : List Char)
  | MissingValueForKey (k : List Char)
  | Custom (s : List Char)
deriving DecidableEq, Repr

/-- Rust's `str::split(c)`: splits on every occurrence of `c`; the empty
string yields one empty substring, and `n` separators yield `n + 1`
substrings. -/
def splitOnChar (c : Char) : List Char → List (List Char)
  | [] => [[]]
  | x :: xs =>
    if x = c then [] :: splitOnChar c xs
    else
      match splitOnChar c xs with
      | t :: ts => (x :: t) :: ts
      | [] => [[x]]

/-- Rust's `str::split_once(c)`: splits at the first occurrence of `c`
into the part before and the part after, or `none` when `c` does not
occur. -/
def splitOnce (c : Char) : List Char → Option (List Char × List Char)
  | [] => none
  | x :: xs =>
    if x = c then some ([], xs)
    else (splitOnce c xs).map (fun p => (x :: p.1, p.2))

/-- The `SubOpt` trait (src/lib.rs lines 102-111) together with its
`Default` super-trait requirement: a default record value and the two
fallible update methods, in state-passing style. -/
structure SubOpt (T : Type) where
  dflt : T
  update_from_value : T → List Char → Except SubOptError T
  update_from_kvpair : T → List Char → List Char → Except SubOptError T

/-- The body of one iteration of `parse_ref`'s token loop (src/lib.rs
lines 88-91): dispatch on whether the token contains `=`. -/
def applyToken {T : Type} (S : SubOpt T) (val : T) (opt : List Char) :
    Except SubOptError T :=
  match splitOnce '=' opt with
  | some (k, v) => S.update_from_kvpair val k v
  | none => S.update_from_value val opt

/-- The token loop of `parse_ref` (src/lib.rs lines 87-93): thread the
record through the tokens left to right, stopping at the first error. -/
def processTokens {T : Type} (S : SubOpt T) (val : T) :
    List (List Char) → Except SubOptError T
  | [] => .ok val
  | opt :: rest =>
    match applyToken S val opt with
    | .ok val' => processTokens S val' rest
    | .error e => .error e

/-- One update call made by the dispatcher: either `update_from_value`
on a bare token or `update_from_kvpair` on a key/value token. -/
inductive Call where
  | value (tok : List Char)
  | kvpair (k v : List Char)
deriving DecidableEq, Repr

/-- The call the dispatcher makes for a given token. -/
def callOf (opt : List Char) : Call :=
  match splitOnce '=' opt with
  | some (k, v) => .kvpair k v
  | none => .value opt

/-- Instrumented twin of `processTokens`: same computation, but also
returns the list of update calls made, in order. -/
def processTokensT {T : Type} (S : SubOpt T) (val : T) :
    List (List Char) → List Call × Except SubOptError T
  | [] => ([], .ok val)
  | opt :: rest =>
    match applyToken S val opt with
    | .ok val' =>
      let p := processTokensT S val' rest
      (callOf opt :: p.1, p.2)
    | .error e => ([callOf opt], .error e)

/-- The core parse contract (src/lib.rs lines 85-93): default record,
split on `:`, process tokens in order. -/
def parse {T : Type} (S : SubOpt T) (s : String) : Except SubOptError T :=
  processTokens S S.dflt (splitOnChar ':' s.data)

/-- The update calls a parse of `s` makes, in order. -/
def calls {T : Type} (S : SubOpt T) (s : String) : List Call :=
  (processTokensT S S.dflt (splitOnChar ':' s.data)).1

/-- The error categories of `clap::ErrorKind` used by the `From`
conversion (src/lib.rs lines 124-141). -/
inductive ClapErrorKind where
  | UnknownArgument
  | EmptyValue
  | InvalidValue
deriving DecidableEq, Repr

/-- A `clap::Error` as produced by `clap::Error::raw(kind, message)`:
an error kind plus a message string. -/
structure ClapError where
  kind : ClapErrorKind
  message : List Char
deriving DecidableEq, Repr

/-- The `impl From<SubOptError> for clap::Error` (src/lib.rs lines
124-141), with the `format!` strings spelled out. -/
def clapErrorFrom : SubOptError → ClapError
  | .UnknownKey k => ⟨.UnknownArgument, "Unknown key: ".data ++ k ++ "\n".data⟩
  | .MissingValueForKey k =>
      ⟨.EmptyValue, "Missing value for key '".data ++ k ++ "'\n".data⟩
  | .Custom s => ⟨.InvalidValue, "Custom error: ".data ++ s ++ "\n".data⟩

/-- An `&OsStr` argument as seen by `parse_ref`: either valid UTF-8
(so `to_str` yields a string) or not (`to_str` yields `None`).  Only
the decodability of the bytes is relevant to the code. -/
inductive OsStr where
  | valid (s : String)
  | invalid
deriving DecidableEq

/-- Rust's `OsStr::to_str`. -/
def OsStr.to_str : OsStr → Option String
  | .valid s => some s
  | .invalid => none

/-- Outcome of the full `parse_ref` entry point: a record, a
`clap::Error`, or a panic (the `expect` on non-UTF-8 input). -/
inductive ParseOutcome (T : Type) where
  | ok (t : T)
  | err (e : ClapError)
  | panic (msg : String)
deriving DecidableEq

/-- `SubOptParser::parse_ref` in full (src/lib.rs lines 76-94): decode
the `OsStr` (panicking if it is not UTF-8), run the core parse, and
convert any `SubOptError` through the `From` impl (the `?` operator). -/
def parse_ref {T : Type} (S : SubOpt T) (v : OsStr) : ParseOutcome T :=
  match v.to_str with
  | none => .panic "SubOptParser requires arguments to be UTF-8"
  | some s =>
    match parse S s with
    | .ok t => .ok t
    | .error e => .err (clapErrorFrom e)

/-- Decimal digit value of a character, as used by Rust's integer
parsing (`char::to_digit(10)`). -/
def digitVal (c : Char) : Option Nat :=
  if '0' ≤ c ∧ c ≤ '9' then some (c.toNat - '0'.toNat) else none

/-- Digit-accumulation loop of Rust's `usize::from_str`, with the
64-bit overflow check and the `ParseIntError` display strings as the
error messages. -/
def parseUsizeGo : List Char → Nat → Except (List Char) Nat
  | [], acc => .ok acc
  | c :: cs, acc =>
    match digitVal c with
    | none => .error "invalid digit found in string".data
    | some d =>
      let acc' := acc * 10 + d
      if acc' < 2 ^ 64 then parseUsizeGo cs acc'
      else .error "number too large to fit in target type".data

/-- Rust's `str::parse::<usize>()` (`usize::from_str`): reject the
empty string, strip an optional leading `+`, then accumulate decimal
digits. -/
def parseUsize (s : List Char) : Except (List Char) Nat :=
  match s with
  | [] => .error "cannot parse integer from empty string".data
  | _ =>
    let digits := match s with | '+' :: rest => rest | _ => s
    match digits with
    | [] => .error "invalid digit found in string".data
    | _ => parseUsizeGo digits 0

/-- The `Buf` record of the crate's doc example (src/lib.rs lines
20-24): two `usize` fields, both defaulting to 0. -/
structure Buf where
  source : Nat
  offset : Nat
deriving DecidableEq, Repr

/-- `Buf`'s `Default` impl (derived): both fields zero. -/
def Buf.dflt : Buf := ⟨0, 0⟩

/-- `Buf::update_from_value` from the doc example (src/lib.rs lines
27-32): a bare token is always an error — `MissingValueForKey` when it
names a known key, `UnknownKey` otherwise. -/
def Buf.update_from_value (_b : Buf) (k : List Char) :
    Except SubOptError Buf :=
  .error
    (if k = "source".data ∨ k = "offset".data then .MissingValueForKey k
     else .UnknownKey k)

/-- `Buf::update_from_kvpair` from the doc example (src/lib.rs lines
33-48): set the named field from the parsed value, wrapping a numeric
parse failure in `Custom` and rejecting unknown keys. -/
def Buf.update_from_kvpair (b : Buf) (k v : List Char) :
    Except SubOptError Buf :=
  if k = "source".data then
    match parseUsize v with
    | .ok n => .ok { b with source := n }
    | .error e => .error (.Custom e)
  else if k = "offset".data then
    match parseUsize v with
    | .ok n => .ok { b with offset := n }
    | .error e => .error (.Custom e)
  else .error (.UnknownKey k)

/-- The doc example's `SubOpt` impl for `Buf`, packaged. -/
def bufSubOpt : SubOpt Buf :=
  ⟨Buf.dflt, Buf.update_from_value, Buf.update_from_kvpair⟩

/-! ## Lemmas about the tokenizer -/

/-- Splitting never yields an empty token list. -/
theorem splitOnChar_ne_nil (c : Char) (l : List Char) :
    splitOnChar c l ≠ [] := by
  induction l with
  | nil => simp [splitOnChar]
  | cons x xs ih =>
    unfold splitOnChar
    by_cases hx : x = c
    · simp [hx]
    · simp only [hx, if_neg, ite_false]
      cases h : splitOnChar c xs with
      | nil => simp
      | cons t ts => simp

/-- Splitting on `c` yields exactly (number of occurrences of `c`) + 1
substrings. -/
theorem splitOnChar_length (c : Char) (l : List Char) :
    (splitOnChar c l).length = l.count c + 1 := by
  induction l with
  | nil => simp [splitOnChar]
  | cons x xs ih =>
    unfold splitOnChar
    by_cases hx : x = c
    · simp [hx, List.count_cons, ih]
    · have hne := splitOnChar_ne_nil c xs
      cases h : splitOnChar c xs with
      | nil => exact absurd h hne
      | cons t ts =>
        simp only [hx, ite_false, List.length_cons]
        rw [h] at ih
        simp only [List.length_cons] at ih
        simp [List.count_cons, hx, ih]

/-- A leading separator yields a leading empty token. -/
theorem splitOnChar_cons_self (c : Char) (l : List Char) :
    splitOnChar c (c :: l) = [] :: splitOnChar c l := by
  simp [splitOnChar]

/-- A trailing separator yields a trailing empty token. -/
theorem splitOnChar_append_self (c : Char) (l : List Char) :
    splitOnChar c (l ++ [c]) = splitOnChar c l ++ [[]] := by
  induction l with
  | nil => simp [splitOnChar]
  | cons x xs ih =>
    by_cases hx : x = c
    · simp only [List.cons_append]
      rw [hx, splitOnChar_cons_self, splitOnChar_cons_self, ih]
      rfl
    · have hne := splitOnChar_ne_nil c xs
      cases h : splitOnChar c xs with
      | nil => exact absurd h hne
      | cons t ts =>
        simp only [List.cons_append]
        unfold splitOnChar
        rw [ih, h]
        simp [hx]

/-- `splitOnce` fails exactly when the character does not occur. -/
theorem splitOnce_eq_none_iff (c : Char) (l : List Char) :
    splitOnce c l = none ↔ c ∉ l := by
  induction l with
  | nil => simp [splitOnce]
  | cons x xs ih =>
    by_cases hx : x = c
    · subst hx
      simp [splitOnce]
    · simp only [splitOnce, if_neg hx, Option.map_eq_none', ih,
        List.mem_cons]
      constructor
      · intro h hm
        rcases hm with h1 | h2
        · exact hx h1.symm
        · exact h h2
      · intro h hm
        exact h (Or.inr hm)

/-- On a list that is a key without `c`, then `c`, then a value,
`splitOnce` recovers exactly that key and value. -/
theorem splitOnce_append (c : Char) (k v : List Char) (hk : c ∉ k) :
    splitOnce c (k ++ c :: v) = some (k, v) := by
  induction k with
  | nil => simp [splitOnce]
  | cons a as ih =>
    have ha : ¬a = c := fun e => hk (e ▸ List.mem_cons_self a as)
    have has : c ∉ as := fun m => hk (List.mem_cons_of_mem a m)
    simp [splitOnce, ha, ih has]

/-- A successful `splitOnce` decomposes the list at the first
occurrence of `c`: the key is everything before it (and contains no
`c`), the value everything after it. -/
theorem splitOnce_eq_some_elim (c : Char) (l k v : List Char)
    (h : splitOnce c l = some (k, v)) : l = k ++ c :: v ∧ c ∉ k := by
  induction l generalizing k v with
  | nil => simp [splitOnce] at h
  | cons x xs ih =>
    by_cases hx : x = c
    · subst hx
      have hx2 : splitOnce x (x :: xs) = some ([], xs) := by
        simp [splitOnce]
      rw [hx2] at h
      injection h with h2
      simp only [Prod.mk.injEq] at h2
      obtain ⟨rfl, rfl⟩ := h2
      simp
    · simp only [splitOnce, if_neg hx, Option.map_eq_some'] at h
      obtain ⟨⟨k', v'⟩, hsp, hpair⟩ := h
      simp only [Prod.mk.injEq] at hpair
      obtain ⟨hk, hv⟩ := hpair
      obtain ⟨hxs, hnk'⟩ := ih k' v' hsp
      subst hk; subst hv
      constructor
      · simp [hxs]
      · intro hm
        rcases List.mem_cons.mp hm with h1 | h2
        · exact hx h1.symm
        · exact hnk' h2

/-- `splitOnce` succeeds exactly on a decomposition at the first
occurrence of `c`. -/
theorem splitOnce_eq_some_iff (c : Char) (l k v : List Char) :
    splitOnce c l = some (k, v) ↔ l = k ++ c :: v ∧ c ∉ k :=
  ⟨splitOnce_eq_some_elim c l k v,
    fun ⟨h1, h2⟩ => h1 ▸ splitOnce_append c k v h2⟩

/-- A token containing `c` always splits. -/
theorem splitOnce_isSome_of_mem (c : Char) (l : List Char) (h : c ∈ l) :
    ∃ k v, splitOnce c l = some (k, v) := by
  rcases hs : splitOnce c l with _ | ⟨k, v⟩
  · exact absurd h ((splitOnce_eq_none_iff c l).mp hs)
  · exact ⟨k, v, rfl⟩

/-! ## Lemmas about the instrumented token loop -/

/-- The instrumented loop computes the same result as the plain one. -/
theorem processTokensT_snd {T : Type} (S : SubOpt T) (val : T)
    (ts : List (List Char)) :
    (processTokensT S val ts).2 = processTokens S val ts := by
  induction ts generalizing val with
  | nil => rfl
  | cons t rest ih =>
    unfold processTokensT processTokens
    cases h : applyToken S val t with
    | ok val' => simpa using ih val'
    | error e => rfl

/-- On a successful run, the loop makes exactly one call per token, in
token order. -/
theorem processTokensT_fst_of_ok {T : Type} (S : SubOpt T) (val : T)
    (ts : List (List Char)) (r : T) (h : processTokens S val ts = .ok r) :
    (processTokensT S val ts).1 = ts.map callOf := by
  induction ts generalizing val with
  | nil => rfl
  | cons t rest ih =>
    unfold processTokens at h
    unfold processTokensT
    cases ha : applyToken S val t with
    | ok val' =>
      rw [ha] at h
      simpa using ih val' h
    | error e => rw [ha] at h; exact absurd h (by simp)

/-- The loop never makes more calls than there are tokens. -/
theorem processTokensT_fst_length_le {T : Type} (S : SubOpt T) (val : T)
    (ts : List (List Char)) :
    (processTokensT S val ts).1.length ≤ ts.length := by
  induction ts generalizing val with
  | nil => simp [processTokensT]
  | cons t rest ih =>
    unfold processTokensT
    cases ha : applyToken S val t with
    | ok val' =>
      simpa using Nat.succ_le_succ (ih val')
    | error e => simp

/-- Running the loop over `ts ++ ts'` when `ts` succeeds: the calls of
`ts` happen first, then the run continues on `ts'` from the
intermediate record. -/
theorem processTokensT_append_ok {T : Type} (S : SubOpt T) (val v : T)
    (ts ts' : List (List Char)) (h : processTokens S val ts = .ok v) :
    processTokensT S val (ts ++ ts') =
      ((processTokensT S val ts).1 ++ (processTokensT S v ts').1,
        (processTokensT S v ts').2) := by
  induction ts generalizing val with
  | nil =>
    simp only [processTokens] at h
    cases h
    simp [processTokensT]
  | cons t rest ih =>
    unfold processTokens at h
    cases ha : applyToken S val t with
    | ok val' =>
      rw [ha] at h
      simp only [List.cons_append, processTokensT, ha]
      simp [ih val' h]
    | error e => rw [ha] at h; exact absurd h (by simp)

/-- A failing token ends the loop at once: exactly one call is made (for
that token) and its error is the final result, whatever tokens follow. -/
theorem processTokensT_error {T : Type} (S : SubOpt T) (val : T)
    (t : List Char) (rest : List (List Char)) (e : SubOptError)
    (h : applyToken S val t = .error e) :
    processTokensT S val (t :: rest) = ([callOf t], .error e) := by
  unfold processTokensT
  rw [h]

/-! ## Spec-side formulation for the refinement claim -/

/-- Spec-side formulation of the dispatcher (spec section 4.1, written
from the spec's words): a single left-to-right monadic fold over the
`:`-token list, starting from the default record, calling
`update_from_kvpair` at the first `=` of a token that has one and
`update_from_value` otherwise. -/
def parseSpec {T : Type} (S : SubOpt T) (s : String) :
    Except SubOptError T :=
  (splitOnChar ':' s.data).foldlM
    (fun val opt =>
      match splitOnce '=' opt with
      | some (k, v) => S.update_from_kvpair val k v
      | none => S.update_from_value val opt)
    S.dflt

/-- The token loop is a monadic left fold. -/
theorem processTokens_eq_foldlM {T : Type} (S : SubOpt T) (val : T)
    (ts : List (List Char)) :
    processTokens S val ts = ts.foldlM (applyToken S) val := by
  induction ts generalizing val with
  | nil => rfl
  | cons t rest ih =>
    rw [List.foldlM_cons]
    unfold processTokens
    cases ha : applyToken S val t with
    | ok val' => exact ih val'
    | error e => rfl

/-! ## Claim theorems -/

/-- C1: for every input string, `parse` starts from the type's default
record, splits the input on `:` into an ordered token sequence, and
processes the tokens strictly left to right in one monadic pass,
dispatching each token to `update_from_kvpair` when it contains `=` and
to `update_from_value` otherwise; if every call succeeds the fully
mutated record is returned.  Stated as: `parse` equals the spec-side
left fold `parseSpec`. -/
theorem parse_eq_spec_fold {T : Type} (S : SubOpt T) (s : String) :
    parse S s = parseSpec S s := by
  unfold parse parseSpec
  rw [processTokens_eq_foldlM]
  rfl

/-- C2: when some token's update call fails, the parse result is
exactly that first error, and the dispatcher makes the update calls
for the preceding tokens and the failing token only — nothing for any
token after it. -/
theorem parse_stops_at_first_error {T : Type} (S : SubOpt T) (s : String)
    (pre : List (List Char)) (t : List Char) (post : List (List Char))
    (v : T) (e : SubOptError)
    (hsplit : splitOnChar ':' s.data = pre ++ t :: post)
    (hpre : processTokens S S.dflt pre = .ok v)
    (hfail : applyToken S v t = .error e) :
    parse S s = .error e ∧ calls S s = pre.map callOf ++ [callOf t] := by
  have happ := processTokensT_append_ok S S.dflt v pre (t :: post) hpre
  have herr := processTokensT_error S v t post e hfail
  constructor
  · have h0 : parse S s = processTokens S S.dflt (pre ++ t :: post) := by
      unfold parse
      rw [hsplit]
    rw [h0, ← processTokensT_snd, happ, herr]
  · have h0 : calls S s = (processTokensT S S.dflt (pre ++ t :: post)).1 := by
      unfold calls
      rw [hsplit]
    rw [h0, happ]
    simp only [herr]
    rw [processTokensT_fst_of_ok S S.dflt pre v hpre]

/-- Witness for C2: on `"source=0:bogus=1:offset=5"` the `Buf` record
accepts `source=0`, fails on `bogus=1` with `UnknownKey "bogus"`, and
no call is made for `offset=5`. -/
theorem parse_stops_at_first_error_witness :
    parse bufSubOpt "source=0:bogus=1:offset=5" =
      .error (.UnknownKey "bogus".data) ∧
    calls bufSubOpt "source=0:bogus=1:offset=5" =
      ["source=0".data].map callOf ++ [callOf "bogus=1".data] :=
  parse_stops_at_first_error bufSubOpt "source=0:bogus=1:offset=5"
    ["source=0".data] "bogus=1".data ["offset=5".data] ⟨0, 0⟩
    (.UnknownKey "bogus".data) rfl rfl rfl

/-- C3: every parse runs from a freshly constructed default record (the
result is a pure function of the default and the input, with no state
carried between calls), and the outcome is exclusive: either a complete
record is returned or an error is — never both, with the partial state
of the error path not handed back. -/
theorem parse_fresh_default_no_partial_success {T : Type} (S : SubOpt T)
    (s : String) :
    parse S s = processTokens S S.dflt (splitOnChar ':' s.data) ∧
    ((∃ r, parse S s = Except.ok r) ↔ ¬∃ e, parse S s = Except.error e) := by
  refine ⟨rfl, ?_⟩
  cases h : parse S s with
  | ok r => simp [h]
  | error e => simp [h]

/-- C4: the empty input splits into exactly one empty token, which is
dispatched as a bare value: `update_from_value` is called exactly once,
with the empty string, and the parse result is whatever that single
call yields. -/
theorem parse_empty_single_value_token {T : Type} (S : SubOpt T) :
    splitOnChar ':' "".data = [[]] ∧
    calls S "" = [Call.value []] ∧
    parse S "" = S.update_from_value S.dflt [] := by
  refine ⟨rfl, ?_, ?_⟩
  · unfold calls
    cases h : S.update_from_value S.dflt [] <;>
      simp [processTokensT, applyToken, splitOnce, callOf, h]
  · unfold parse
    cases h : S.update_from_value S.dflt [] <;>
      simp [processTokens, applyToken, splitOnce, h]

/-- C5: a token containing `=` is split at its first `=` — the key is
the text before it (so contains no `=`) and the value everything after
it, either possibly empty — and the dispatcher itself rejects nothing:
it calls `update_from_kvpair key value` and the record's answer alone
decides the outcome. -/
theorem dispatch_splits_at_first_eq {T : Type} (S : SubOpt T) (val : T)
    (t : List Char) (rest : List (List Char)) (h : '=' ∈ t) :
    ∃ k v, splitOnce '=' t = some (k, v) ∧ t = k ++ '=' :: v ∧
      '=' ∉ k ∧
      (processTokensT S val (t :: rest)).1.head? = some (Call.kvpair k v) ∧
      (∀ r, S.update_from_kvpair val k v = Except.ok r →
        processTokens S val (t :: rest) = processTokens S r rest) ∧
      (∀ e, S.update_from_kvpair val k v = Except.error e →
        processTokens S val (t :: rest) = Except.error e) := by
  obtain ⟨k, v, hs⟩ := splitOnce_isSome_of_mem '=' t h
  obtain ⟨heq, hnk⟩ := splitOnce_eq_some_elim '=' t k v hs
  have ha : applyToken S val t = S.update_from_kvpair val k v := by
    unfold applyToken
    rw [hs]
  have hc : callOf t = Call.kvpair k v := by
    unfold callOf
    rw [hs]
  refine ⟨k, v, hs, heq, hnk, ?_, ?_, ?_⟩
  · unfold processTokensT
    rw [ha]
    cases hkv : S.update_from_kvpair val k v <;> simp [hc]
  · intro r hr
    show (match applyToken S val t with
          | Except.ok val' => processTokens S val' rest
          | Except.error e => Except.error e) = processTokens S r rest
    rw [ha, hr]
  · intro e he
    show (match applyToken S val t with
          | Except.ok val' => processTokens S val' rest
          | Except.error e => Except.error e) = Except.error e
    rw [ha, he]

/-- Witness for C5: the token `"="` (empty key, empty value) splits
into key `""` and value `""`, and the `Buf` record — not the
dispatcher — rejects it. -/
theorem dispatch_splits_at_first_eq_witness :
    ∃ k v, splitOnce '=' "=".data = some (k, v) ∧
      "=".data = k ++ '=' :: v ∧ '=' ∉ k ∧
      (processTokensT bufSubOpt Buf.dflt ["=".data]).1.head? =
        some (Call.kvpair k v) ∧
      (∀ r, bufSubOpt.update_from_kvpair Buf.dflt k v = Except.ok r →
        processTokens bufSubOpt Buf.dflt ["=".data] =
          processTokens bufSubOpt r []) ∧
      (∀ e, bufSubOpt.update_from_kvpair Buf.dflt k v = Except.error e →
        processTokens bufSubOpt Buf.dflt ["=".data] = Except.error e) :=
  dispatch_splits_at_first_eq bufSubOpt Buf.dflt "=".data [] (by decide)

/-- C6: the conversion of `SubOptError` into the host framework's error
is a pure, total function mapping the three variants 1:1 —
`UnknownKey` to the unknown-argument class, `MissingValueForKey` to the
empty/missing-value class, `Custom` to the invalid-value class — with
the three target classes pairwise distinct, and each mapped error
carries exactly the message text this core formats. -/
theorem clapErrorFrom_total_one_to_one :
    (∀ k, clapErrorFrom (.UnknownKey k) =
      ⟨.UnknownArgument, "Unknown key: ".data ++ k ++ "\n".data⟩) ∧
    (∀ k, clapErrorFrom (.MissingValueForKey k) =
      ⟨.EmptyValue, "Missing value for key '".data ++ k ++ "'\n".data⟩) ∧
    (∀ m, clapErrorFrom (.Custom m) =
      ⟨.InvalidValue, "Custom error: ".data ++ m ++ "\n".data⟩) ∧
    (∀ k k', (clapErrorFrom (.UnknownKey k)).kind ≠
      (clapErrorFrom (.MissingValueForKey k')).kind) ∧
    (∀ k m, (clapErrorFrom (.UnknownKey k)).kind ≠
      (clapErrorFrom (.Custom m)).kind) ∧
    (∀ k' m, (clapErrorFrom (.MissingValueForKey k')).kind ≠
      (clapErrorFrom (.Custom m)).kind) := by
  refine ⟨fun k => rfl, fun k => rfl, fun m => rfl, ?_, ?_, ?_⟩ <;>
    intro a b <;> simp [clapErrorFrom]

/-- C7: for the doc example's `Buf` record (unsigned-integer fields
`source` and `offset`, both defaulting to 0), `"source=0:offset=1000"`
parses to `{source := 0, offset := 1000}`, and `"offset=1000:source=0"`
parses to the same record — order-independent for disjoint keys. -/
theorem buf_roundtrip_order_independent :
    parse bufSubOpt "source=0:offset=1000" =
      .ok { source := 0, offset := 1000 } ∧
    parse bufSubOpt "offset=1000:source=0" =
      .ok { source := 0, offset := 1000 } :=
  ⟨rfl, rfl⟩

/-- C8: non-UTF-8 input is a boundary-level fatal condition outside the
parser's error taxonomy: decoding failure panics with the `expect`
message and never surfaces as a `SubOptError`-derived error, and on any
input that decodes to text the panic branch is unreachable. -/
theorem parse_ref_utf8_boundary {T : Type} (S : SubOpt T) (v : OsStr) :
    (v.to_str = none →
      parse_ref S v =
        ParseOutcome.panic "SubOptParser requires arguments to be UTF-8") ∧
    (∀ e, parse_ref S v = ParseOutcome.err e →
      ∃ s se, v.to_str = some s ∧ parse S s = Except.error se ∧
        e = clapErrorFrom se) ∧
    (∀ s, v.to_str = some s →
      ∀ m, parse_ref S v ≠ ParseOutcome.panic m) := by
  cases v with
  | invalid =>
    refine ⟨fun _ => rfl, ?_, ?_⟩
    · intro e he
      simp [parse_ref, OsStr.to_str] at he
    · intro s hs
      simp [OsStr.to_str] at hs
  | valid s' =>
    refine ⟨?_, ?_, ?_⟩
    · intro h
      simp [OsStr.to_str] at h
    · intro e he
      simp only [parse_ref, OsStr.to_str] at he
      cases hp : parse S s' with
      | ok t => rw [hp] at he; simp at he
      | error se =>
        rw [hp] at he
        simp only [ParseOutcome.err.injEq] at he
        exact ⟨s', se, rfl, hp, he.symm⟩
    · intro s hs m hm
      simp only [parse_ref, OsStr.to_str] at hm
      cases hp : parse S s' with
      | ok t => rw [hp] at hm; simp at hm
      | error se => rw [hp] at hm; simp at hm

/-- C9: `parse` terminates on every input, the split yields exactly
(number of `:` occurrences) + 1 tokens, the loop makes at most that
many update calls, and on the success path exactly that many. -/
theorem parse_call_bound {T : Type} (S : SubOpt T) (s : String) :
    (splitOnChar ':' s.data).length = s.data.count ':' + 1 ∧
    (calls S s).length ≤ s.data.count ':' + 1 ∧
    (∀ r, parse S s = Except.ok r →
      (calls S s).length = s.data.count ':' + 1) := by
  refine ⟨splitOnChar_length ':' s.data, ?_, ?_⟩
  · have h1 := processTokensT_fst_length_le S S.dflt (splitOnChar ':' s.data)
    rw [splitOnChar_length ':' s.data] at h1
    exact h1
  · intro r hr
    unfold calls
    rw [processTokensT_fst_of_ok S S.dflt (splitOnChar ':' s.data) r hr]
    rw [List.length_map]
    exact splitOnChar_length ':' s.data

/-- C10: a leading or trailing `:` produces a leading or trailing empty
token dispatched as a bare value; in particular parsing `"source=1:"`
with the `Buf` record calls `update_from_kvpair "source" "1"` and then
`update_from_value ""`. -/
theorem colon_edge_empty_value_token :
    (∀ l : List Char, splitOnChar ':' (':' :: l) = [] :: splitOnChar ':' l) ∧
    (∀ l : List Char, splitOnChar ':' (l ++ [':']) =
      splitOnChar ':' l ++ [[]]) ∧
    calls bufSubOpt "source=1:" =
      [Call.kvpair "source".data "1".data, Call.value []] :=
  ⟨splitOnChar_cons_self ':', splitOnChar_append_self ':', rfl⟩

end ClapSubopt
